import Mathlib

/-!
Verification of the economic-analysis model (`economic_analysis.py`).

The financial layer (loan amortization via numpy_financial's `pmt` /
`ipmt` / `ppmt`, the declining-fraction depreciation loop, the tax row of
the cash-flow ledger, and the payback counter) is embedded over `ℚ`, so
every identity is exact.  The boiler cost correlation uses a real power
`Q ^ 0.9` and is embedded over `ℝ`.
-/

namespace EconomicAnalysis

/-- Annuity payment, translated from numpy_financial `pmt` with `fv = 0`
and `when = 'end'`: `-(pv·(1+r)^n)·r / ((1+r)^n - 1)`, and `-pv/n` when
the rate is zero. -/
def pmt (rate : ℚ) (nper : ℕ) (pv : ℚ) : ℚ :=
  if rate = 0 then -pv / nper
  else -pv * (1 + rate) ^ nper * rate / ((1 + rate) ^ nper - 1)

/-- Future value, translated from numpy_financial `fv` with `when = 'end'`:
`-(pv·(1+r)^n + pmt·((1+r)^n - 1)/r)`, and `-(pv + pmt·n)` at rate zero. -/
def fv (rate : ℚ) (nper : ℕ) (pmtv pv : ℚ) : ℚ :=
  if rate = 0 then -(pv + pmtv * nper)
  else -(pv * (1 + rate) ^ nper + pmtv * ((1 + rate) ^ nper - 1) / rate)

/-- Interest portion of period `per`, translated from numpy_financial
`ipmt`: the remaining balance after `per - 1` periods times the rate. -/
def ipmt (rate : ℚ) (per nper : ℕ) (pv : ℚ) : ℚ :=
  fv rate (per - 1) (pmt rate nper pv) pv * rate

/-- Principal portion of period `per`, translated from numpy_financial
`ppmt`: total payment minus the interest portion. -/
def ppmt (rate : ℚ) (per nper : ℕ) (pv : ℚ) : ℚ :=
  pmt rate nper pv - ipmt rate per nper pv

/-- `economic_analysis.loan`: returns the constant payment, the interest
series `ipmt(interest, 1..years, years, quantity)` and the principal
series `ppmt(interest, 1..years, years, quantity)`. -/
def loan (quantity interest : ℚ) (years : ℕ) : ℚ × List ℚ × List ℚ :=
  (pmt interest years quantity,
   (List.range years).map fun k => ipmt interest (k + 1) years quantity,
   (List.range years).map fun k => ppmt interest (k + 1) years quantity)

/-- `economic_analysis.loan` together with its `assert` preconditions
(`quantity > 0`, `0 ≤ interest ≤ 1`, `years > 1`): the asserts fire before
any computation, modelled as `none`. -/
def loanChecked (quantity interest : ℚ) (years : ℕ) : Option (ℚ × List ℚ × List ℚ) :=
  if 0 < quantity ∧ 0 ≤ interest ∧ interest ≤ 1 ∧ 1 < years then
    some (loan quantity interest years)
  else none

/-- The `while True` loop of `economic_analysis.depreciation`, with
explicit fuel: starting from `prev`, if `prev < d` append `prev` and stop,
otherwise append `d` and continue with `prev - d`.  `none` means the fuel
ran out before the loop stopped. -/
def depLoop (d : ℚ) : ℕ → ℚ → Option (List ℚ)
  | 0, _ => none
  | fuel + 1, prev =>
      if prev < d then some [prev]
      else (depLoop d fuel (prev - d)).map fun l => d :: l

/-- Fuel sufficient for `depLoop` whenever `0 < d`: the loop starting at
`1` runs at most `⌈1/d⌉` full steps plus the final partial step. -/
def depFuel (d : ℚ) : ℕ := ⌈1 / d⌉₊ + 1

/-- `economic_analysis.depreciation`: run the loop from fraction `1` and
scale each emitted fraction by `-1 · (capex - residual_value)`. -/
def depreciation (annual_percent capex residual_value : ℚ) : Option (List ℚ) :=
  (depLoop annual_percent (depFuel annual_percent) 1).map fun l =>
    l.map fun x => -1 * x * (capex - residual_value)

/-- `economic_analysis.depreciation` together with its single `assert`
(`0 ≤ annual_percent ≤ 1`); there is no check on `capex` or
`residual_value` in the source. -/
def depreciationChecked (annual_percent capex residual_value : ℚ) : Option (List ℚ) :=
  if 0 ≤ annual_percent ∧ annual_percent ≤ 1 then
    depreciation annual_percent capex residual_value
  else none

/-- One entry of the Taxes row of `economic_analysis.execute`:
`taxes = ebt * -0.3`, then set to `0` whenever the result is `> 0`. -/
def taxesEntry (e : ℚ) : ℚ :=
  if e * (-3 / 10) > 0 then 0 else e * (-3 / 10)

/-- The Taxes row of the ledger, elementwise over the EBT row. -/
def taxesRow (ebt : List ℚ) : List ℚ := ebt.map taxesEntry

/-- Modelled from the spec sentence under test for the tax rule (the
claimed behaviour, for comparison with `taxesRow`): `Taxes = −0.3·EBT`,
clipped to zero whenever EBT is positive. -/
def taxesRowClaim (ebt : List ℚ) : List ℚ :=
  ebt.map fun e => if e > 0 then 0 else e * (-3 / 10)

/-- The EAT row of `economic_analysis.execute`: `eat = ebt - taxes`,
elementwise. -/
def eatRow (ebt : List ℚ) : List ℚ :=
  List.zipWith (fun a b => a - b) ebt (taxesRow ebt)

/-- The loop of `economic_analysis.payback`: `years` starts at 1 and is
incremented for each negative entry; the first entry `≥ 0` stops the
scan. -/
def paybackGo : ℕ → List ℚ → ℕ
  | years, [] => years
  | years, c :: cs => if c < 0 then paybackGo (years + 1) cs else years

/-- `economic_analysis.payback`. -/
def payback (cash_flow : List ℚ) : ℕ := paybackGo 1 cash_flow

/-- The `Q < 20000` boiler formula: `106000 + 8.7·Q`. -/
def boilerLowFormula (Q : ℝ) : ℝ := 106000 + 8.7 * Q

/-- The high-capacity boiler formula: `110000 + 4.5·Q^0.9`. -/
noncomputable def boilerHighFormula (Q : ℝ) : ℝ := 110000 + 4.5 * Q ^ (0.9 : ℝ)

/-- The pressure-dependent middle branch (`20000 ≤ Q < 200000`) of
`economic_analysis.boiler_correlation`. -/
noncomputable def boilerMidFormula (Q p : ℝ) : ℝ :=
  if p < 15 then boilerHighFormula Q
  else if p < 40 then boilerLowFormula Q
  else boilerHighFormula Q

/-- The piecewise selection of `economic_analysis.boiler_correlation`,
before the final `int` truncation. -/
noncomputable def boilerCorrelationVal (valor_production pressure : ℝ) : ℝ :=
  if valor_production < 20000 then boilerLowFormula valor_production
  else if valor_production < 200000 then boilerMidFormula valor_production pressure
  else boilerHighFormula valor_production

/-- `economic_analysis.boiler_correlation`: the piecewise value truncated
to an integer (all branch values are positive, so Python `int` is the
floor). -/
noncomputable def boiler_correlation (valor_production pressure : ℝ) : ℤ :=
  ⌊boilerCorrelationVal valor_production pressure⌋

example : payback [-100, -20, 30, 40] = 3 := by norm_num [payback, paybackGo]
example : taxesRow [10, -10] = [-3, 0] := by norm_num [taxesRow, taxesEntry]
example : ((loan 100 1 2).2.2).sum = -100 := by
  norm_num [loan, ppmt, ipmt, pmt, fv, List.range_succ]
example : depreciation (1/2) 3 1 = some [-1, -1, 0] := by
  norm_num [depreciation, depFuel, depLoop]
example : depreciation (7/100) 100000 0 =
    some [-7000, -7000, -7000, -7000, -7000, -7000, -7000, -7000, -7000,
          -7000, -7000, -7000, -7000, -7000, -2000] := by
  have hceil : (⌈(1 : ℚ) / (7/100)⌉₊ : ℕ) = 15 := by
    rw [Nat.ceil_eq_iff] <;> norm_num
  have hf : depFuel (7/100) = 16 := by unfold depFuel; rw [hceil]
  unfold depreciation
  rw [hf]
  norm_num [depLoop]

lemma paybackGo_append (x : ℚ) (post : List ℚ) (hx : 0 ≤ x) :
    ∀ (pre : List ℚ) (years : ℕ), (∀ y ∈ pre, y < 0) →
      paybackGo years (pre ++ x :: post) = years + pre.length := by
  intro pre
  induction pre with
  | nil => intro years _; simp [paybackGo, not_lt.2 hx]
  | cons a tl ih =>
      intro years h
      have ha : a < 0 := h a (by simp)
      have htl := ih (years + 1) fun y hy => h y (by simp [hy])
      show (if a < 0 then paybackGo (years + 1) (tl ++ x :: post) else years) =
        years + (a :: tl).length
      rw [if_pos ha, htl, List.length_cons]
      omega

lemma paybackGo_all_neg :
    ∀ (l : List ℚ) (years : ℕ), (∀ y ∈ l, y < 0) →
      paybackGo years l = years + l.length := by
  intro l
  induction l with
  | nil => intro years _; simp [paybackGo]
  | cons a tl ih =>
      intro years h
      have ha : a < 0 := h a (by simp)
      have htl := ih (years + 1) fun y hy => h y (by simp [hy])
      show (if a < 0 then paybackGo (years + 1) tl else years) =
        years + (a :: tl).length
      rw [if_pos ha, htl, List.length_cons]
      omega

/-- C6: for a cash-flow sequence that starts with `pre.length` negative
entries followed by a non-negative entry, `payback` returns
`pre.length + 1`, the 1-based year index (counting from year 1) of that
first non-negative entry. -/
theorem payback_first_nonneg_year (pre post : List ℚ) (x : ℚ)
    (hpre : ∀ y ∈ pre, y < 0) (hx : 0 ≤ x) :
    payback (pre ++ x :: post) = pre.length + 1 := by
  unfold payback
  rw [paybackGo_append x post hx pre 1 hpre]
  omega

theorem payback_first_nonneg_year_witness : payback [-100, -20, 30, 40] = 3 := by
  have h := payback_first_nonneg_year [-100, -20] [40] 30
    (by intro y hy; simp at hy; rcases hy with rfl | rfl <;> norm_num) (by norm_num)
  simpa using h

/-- C10: on an all-negative cash-flow sequence `payback` returns the
length plus one (it never signals "no payback"), and on the empty
sequence it returns 1. -/
theorem payback_all_negative_and_empty :
    (∀ l : List ℚ, (∀ y ∈ l, y < 0) → payback l = l.length + 1) ∧
    payback ([] : List ℚ) = 1 := by
  constructor
  · intro l h
    unfold payback
    rw [paybackGo_all_neg l 1 h]
    omega
  · rfl

theorem payback_all_negative_and_empty_witness : payback [-1, -2] = 3 := by
  have h := payback_all_negative_and_empty.1 [-1, -2]
    (by intro y hy; simp at hy; rcases hy with rfl | rfl <;> norm_num)
  simpa using h

lemma taxesEntry_eq (e : ℚ) :
    taxesEntry e = if e < 0 then 0 else e * (-3 / 10) := by
  unfold taxesEntry
  rcases lt_trichotomy e 0 with h | h | h
  · rw [if_pos (by nlinarith), if_pos h]
  · subst h; norm_num
  · rw [if_neg (not_lt.2 (by nlinarith)), if_neg (not_lt.2 (by linarith))]

/-- C1 counterexample: in a year with EBT = 10 (positive), the code's
Taxes entry is `-3 = 10 · (-0.3)`, not the `0` demanded by the claim
"clipped to zero whenever EBT is positive". -/
theorem taxesRow_ne_taxesRowClaim :
    taxesRow [10] = [-3] ∧ taxesRowClaim [10] = [0] ∧
    taxesRow [10] ≠ taxesRowClaim [10] := by
  refine ⟨?_, ?_, ?_⟩ <;> norm_num [taxesRow, taxesRowClaim, taxesEntry]

/-- C1 (amended): the Taxes row equals `-0.3·EBT` clipped to zero exactly
in the years where EBT is negative (where the computed tax would be a
positive credit); in years of non-negative EBT the entry is `-0.3·EBT`
itself. -/
theorem taxesRow_eq_clip_on_negative_ebt :
    ∀ ebt : List ℚ,
      taxesRow ebt = ebt.map fun e => if e < 0 then 0 else e * (-3 / 10) := by
  intro ebt
  unfold taxesRow
  congr 1
  funext e
  exact taxesEntry_eq e

theorem taxesRow_eq_clip_on_negative_ebt_witness :
    taxesRow [10, -10] = [-3, 0] := by
  rw [taxesRow_eq_clip_on_negative_ebt [10, -10]]
  norm_num

/-- C7: every entry of the Taxes row is non-positive; no year shows a
positive tax credit. -/
theorem taxesRow_nonpos (ebt : List ℚ) (x : ℚ) (hx : x ∈ taxesRow ebt) :
    x ≤ 0 := by
  rcases List.mem_map.1 hx with ⟨e, _, rfl⟩
  unfold taxesEntry
  by_cases h : e * (-3 / 10) > 0
  · rw [if_pos h]
  · rw [if_neg h]
    exact le_of_not_lt h

theorem taxesRow_nonpos_witness : taxesEntry 5 ≤ 0 :=
  taxesRow_nonpos [5] (taxesEntry 5) (by simp [taxesRow])

/-- C9: in every year with non-negative EBT the tax is not clipped, so
`EAT = EBT - Taxes = 1.3·EBT`, and in a strictly profitable year the
after-tax earnings strictly exceed the pre-tax earnings. -/
theorem eat_row_scales_ebt (ebt : List ℚ) (i : ℕ)
    (h1 : i < ebt.length) (h2 : i < (eatRow ebt).length)
    (hE : 0 ≤ ebt.get ⟨i, h1⟩) :
    (eatRow ebt).get ⟨i, h2⟩ = 13 / 10 * ebt.get ⟨i, h1⟩ ∧
    (0 < ebt.get ⟨i, h1⟩ → ebt.get ⟨i, h1⟩ < (eatRow ebt).get ⟨i, h2⟩) := by
  have hget : (eatRow ebt).get ⟨i, h2⟩ =
      ebt.get ⟨i, h1⟩ - taxesEntry (ebt.get ⟨i, h1⟩) := by
    simp [eatRow, taxesRow, List.get_eq_getElem, List.getElem_zipWith,
      List.getElem_map]
  have htx : taxesEntry (ebt.get ⟨i, h1⟩) = ebt.get ⟨i, h1⟩ * (-3 / 10) := by
    unfold taxesEntry
    rw [if_neg (not_lt.2 (by nlinarith))]
  refine ⟨?_, ?_⟩
  · rw [hget, htx]; ring
  · intro hpos
    rw [hget, htx]
    nlinarith

theorem eat_row_scales_ebt_witness :
    (eatRow [10]).get ⟨0, by norm_num [eatRow, taxesRow]⟩ = 13 := by
  have h := eat_row_scales_ebt [10] 0 (by norm_num)
    (by norm_num [eatRow, taxesRow]) (by norm_num)
  rw [h.1]
  norm_num

lemma depLoop_zero_diverges :
    ∀ (fuel : ℕ) (prev : ℚ), 0 ≤ prev → depLoop 0 fuel prev = none := by
  intro fuel
  induction fuel with
  | zero => intro prev _; rfl
  | succ f ih =>
      intro prev hprev
      show (if prev < 0 then some [prev]
        else (depLoop 0 f (prev - 0)).map fun l => (0 : ℚ) :: l) = none
      rw [if_neg (not_lt.2 hprev), sub_zero, ih prev hprev]
      rfl

/-- C3 counterexample: at the in-domain rate d = 0 the depreciation loop
never stops — no amount of fuel makes it produce a sequence — so the
claim that the loop terminates for every d in [0,1] is false. -/
theorem depreciation_rate_zero_diverges :
    depreciation 0 100 0 = none ∧
    ¬ ∃ fuel : ℕ, (depLoop 0 fuel 1).isSome = true := by
  constructor
  · unfold depreciation
    rw [depLoop_zero_diverges (depFuel 0) 1 (by norm_num)]
    rfl
  · rintro ⟨fuel, hf⟩
    rw [depLoop_zero_diverges fuel 1 (by norm_num)] at hf
    simp at hf

lemma isSome_map {α β : Type} (f : α → β) (o : Option α) :
    (o.map f).isSome = o.isSome := by
  cases o <;> rfl

lemma depLoop_isSome (d : ℚ) :
    ∀ (fuel : ℕ) (prev : ℚ), 0 ≤ prev → prev < (fuel : ℚ) * d →
      (depLoop d fuel prev).isSome = true := by
  intro fuel
  induction fuel with
  | zero =>
      intro prev h0 hlt
      norm_num at hlt
      linarith
  | succ f ih =>
      intro prev h0 hlt
      show ((if prev < d then some [prev]
        else (depLoop d f (prev - d)).map fun l => d :: l)).isSome = true
      by_cases h : prev < d
      · rw [if_pos h]
        rfl
      · rw [if_neg h]
        have hd : d ≤ prev := le_of_not_lt h
        have hcast : ((f : ℚ) + 1) * d = (f : ℚ) * d + d := by ring
        have hlt' : prev - d < (f : ℚ) * d := by
          push_cast at hlt
          linarith [hcast]
        rw [isSome_map]
        exact ih (prev - d) (by linarith) hlt'

/-- C3 (amended): for every strictly positive rate d ≤ 1 the depreciation
loop terminates — `depFuel d` steps suffice — and `depreciation` returns a
finite sequence of year entries. -/
theorem depreciation_terminates_of_pos_rate (d capex residual : ℚ)
    (hd : 0 < d) (hd1 : d ≤ 1) :
    (depreciation d capex residual).isSome = true ∧
    ∃ fuel : ℕ, (depLoop d fuel 1).isSome = true := by
  have hceil : (1 / d : ℚ) ≤ (⌈(1 : ℚ) / d⌉₊ : ℚ) := Nat.le_ceil _
  have hfd : ((depFuel d : ℕ) : ℚ) = (⌈(1 : ℚ) / d⌉₊ : ℚ) + 1 := by
    unfold depFuel
    push_cast
    ring
  have hone : (1 / d : ℚ) * d = 1 := by field_simp
  have hfuel : (1 : ℚ) < ((depFuel d : ℕ) : ℚ) * d := by
    rw [hfd]
    nlinarith [mul_le_mul_of_nonneg_right hceil (le_of_lt hd)]
  have hs := depLoop_isSome d (depFuel d) 1 (by norm_num) hfuel
  refine ⟨?_, ⟨depFuel d, hs⟩⟩
  unfold depreciation
  rw [isSome_map]
  exact hs

theorem depreciation_terminates_of_pos_rate_witness :
    (depreciation (7/100) 100000 0).isSome = true :=
  (depreciation_terminates_of_pos_rate (7/100) 100000 0 (by norm_num)
    (by norm_num)).1

lemma depLoop_sum (d : ℚ) :
    ∀ (fuel : ℕ) (prev : ℚ) (l : List ℚ),
      depLoop d fuel prev = some l → l.sum = prev := by
  intro fuel
  induction fuel with
  | zero =>
      intro prev l h
      exact absurd h (by simp [depLoop])
  | succ f ih =>
      intro prev l h
      rw [show depLoop d (f + 1) prev = (if prev < d then some [prev]
        else (depLoop d f (prev - d)).map fun l => d :: l) from rfl] at h
      by_cases hc : prev < d
      · rw [if_pos hc] at h
        obtain rfl : [prev] = l := Option.some.inj h
        simp
      · rw [if_neg hc] at h
        rcases Option.map_eq_some'.1 h with ⟨l', hl', rfl⟩
        have hsum := ih (prev - d) l' hl'
        rw [List.sum_cons, hsum]
        ring

lemma depLoop_get_le (d : ℚ) :
    ∀ (fuel : ℕ) (prev : ℚ) (l : List ℚ), depLoop d fuel prev = some l →
      ∀ (i : ℕ) (h : i < l.length), l.get ⟨i, h⟩ ≤ prev - (l.take i).sum := by
  intro fuel
  induction fuel with
  | zero =>
      intro prev l h
      exact absurd h (by simp [depLoop])
  | succ f ih =>
      intro prev l h i hi
      rw [show depLoop d (f + 1) prev = (if prev < d then some [prev]
        else (depLoop d f (prev - d)).map fun l => d :: l) from rfl] at h
      by_cases hc : prev < d
      · rw [if_pos hc] at h
        obtain rfl : [prev] = l := Option.some.inj h
        have : i = 0 := by
          simp at hi
          omega
        subst this
        simp
      · rw [if_neg hc] at h
        rcases Option.map_eq_some'.1 h with ⟨l', hl', rfl⟩
        cases i with
        | zero =>
            simpa using le_of_not_lt hc
        | succ j =>
            have hj : j < l'.length := by simpa using hi
            have hb := ih (prev - d) l' hl' j hj
            simp only [List.get_cons_succ, List.take_succ_cons, List.sum_cons]
            have hgeq : (l'.take j).sum + d = d + (l'.take j).sum := by ring
            linarith

lemma depLoop_nonneg (d : ℚ) (hd : 0 ≤ d) :
    ∀ (fuel : ℕ) (prev : ℚ), 0 ≤ prev → ∀ l : List ℚ,
      depLoop d fuel prev = some l → ∀ x ∈ l, 0 ≤ x := by
  intro fuel
  induction fuel with
  | zero =>
      intro prev _ l h
      exact absurd h (by simp [depLoop])
  | succ f ih =>
      intro prev hprev l h x hx
      rw [show depLoop d (f + 1) prev = (if prev < d then some [prev]
        else (depLoop d f (prev - d)).map fun l => d :: l) from rfl] at h
      by_cases hc : prev < d
      · rw [if_pos hc] at h
        obtain rfl : [prev] = l := Option.some.inj h
        simp at hx
        subst hx
        exact hprev
      · rw [if_neg hc] at h
        rcases Option.map_eq_some'.1 h with ⟨l', hl', rfl⟩
        rcases List.mem_cons.1 hx with rfl | hx'
        · exact hd
        · exact ih (prev - d) (by linarith [le_of_not_lt hc]) l' hl' x hx'

lemma map_scale_sum (c : ℚ) :
    ∀ l : List ℚ, (l.map fun x => -1 * x * c).sum = -c * l.sum := by
  intro l
  induction l with
  | nil => simp
  | cons a tl ih =>
      simp only [List.map_cons, List.sum_cons, ih]
      ring

/-- C4: for every valid depreciation input on which the schedule is
defined, the series sums to `-(capex - residual)` — so its magnitude is
exactly the depreciable base — and no single year entry exceeds in
magnitude the base still undepreciated before that year. -/
theorem depreciation_sum_and_entry_bound (d capex residual : ℚ)
    (l : List ℚ) (hd0 : 0 ≤ d) (hd1 : d ≤ 1) (hcr : residual ≤ capex)
    (hl : depreciation d capex residual = some l) :
    l.sum = -(capex - residual) ∧
    ∀ (i : ℕ) (h : i < l.length),
      |l.get ⟨i, h⟩| ≤ (capex - residual) + (l.take i).sum := by
  rcases Option.map_eq_some'.1 hl with ⟨fr, hfr, rfl⟩
  have hcpos : 0 ≤ capex - residual := by linarith
  have hsum : fr.sum = 1 := depLoop_sum d (depFuel d) 1 fr hfr
  constructor
  · rw [map_scale_sum (capex - residual) fr, hsum]
    ring
  · intro i hi
    have hif : i < fr.length := by simpa using hi
    have hget : (fr.map fun x => -1 * x * (capex - residual)).get ⟨i, hi⟩ =
        -1 * fr.get ⟨i, hif⟩ * (capex - residual) := by
      simp [List.get_eq_getElem]
    have htake : ((fr.map fun x => -1 * x * (capex - residual)).take i).sum =
        -(capex - residual) * (fr.take i).sum := by
      rw [← List.map_take, map_scale_sum]
    have hb := depLoop_get_le d (depFuel d) 1 fr hfr i hif
    have hx : 0 ≤ fr.get ⟨i, hif⟩ :=
      depLoop_nonneg d hd0 (depFuel d) 1 (by norm_num) fr hfr _ (fr.get_mem ..)
    rw [hget, htake]
    have habs : |(-1 : ℚ) * fr.get ⟨i, hif⟩ * (capex - residual)| =
        fr.get ⟨i, hif⟩ * (capex - residual) := by
      rw [show (-1 : ℚ) * fr.get ⟨i, hif⟩ * (capex - residual) =
        -(fr.get ⟨i, hif⟩ * (capex - residual)) from by ring, abs_neg,
        abs_of_nonneg (mul_nonneg hx hcpos)]
    rw [habs]
    have hb' : fr.get ⟨i, hif⟩ ≤ 1 - (fr.take i).sum := by linarith
    nlinarith [mul_le_mul_of_nonneg_right hb' hcpos]

theorem depreciation_sum_and_entry_bound_witness :
    ([-1, -1, 0] : List ℚ).sum = -((3 : ℚ) - 1) :=
  (depreciation_sum_and_entry_bound (1/2) 3 1 [-1, -1, 0] (by norm_num)
    (by norm_num) (by norm_num)
    (by norm_num [depreciation, depFuel, depLoop])).1

lemma list_range_map_sum (f : ℕ → ℚ) :
    ∀ n : ℕ, ((List.range n).map f).sum = ∑ i in Finset.range n, f i := by
  intro n
  induction n with
  | zero => simp
  | succ m ih =>
      rw [List.range_succ, List.map_append, List.sum_append,
        Finset.sum_range_succ, ih]
      simp

lemma ppmt_closed (r q : ℚ) (y : ℕ) (hr : r ≠ 0) (k : ℕ) :
    ppmt r (k + 1) y q = (1 + r) ^ k * (pmt r y q + q * r) := by
  unfold ppmt ipmt
  rw [show k + 1 - 1 = k from rfl]
  unfold fv
  rw [if_neg hr]
  field_simp
  ring

/-- C2 counterexample: for the valid input (quantity 100, interest 1,
years 2) the principal series sums to -100, the negation of the
principal, not the principal itself. -/
theorem loan_principal_sum_sign_counterexample :
    ((loan 100 1 2).2.2).sum = -100 ∧ ((loan 100 1 2).2.2).sum ≠ 100 := by
  constructor <;> norm_num [loan, ppmt, ipmt, pmt, fv, List.range_succ]

/-- C2 (amended): for every valid loan input the principal-payment series
sums exactly to the NEGATION of the financed quantity — the entries carry
the numpy payment sign convention (outflows are negative) — so its
magnitude equals the original principal. -/
theorem loan_principal_total (q r : ℚ) (y : ℕ)
    (hq : 0 < q) (hr0 : 0 ≤ r) (hr1 : r ≤ 1) (hy : 1 < y) :
    ((loan q r y).2.2).sum = -q := by
  have hy0 : y ≠ 0 := by omega
  show ((List.range y).map fun k => ppmt r (k + 1) y q).sum = -q
  rw [list_range_map_sum]
  by_cases hr : r = 0
  · subst hr
    have hterm : ∀ k ∈ Finset.range y, ppmt 0 (k + 1) y q = -q / y := by
      intro k _
      unfold ppmt ipmt
      rw [mul_zero, sub_zero]
      unfold pmt
      rw [if_pos rfl]
    rw [Finset.sum_congr rfl hterm, Finset.sum_const, Finset.card_range,
      nsmul_eq_mul]
    field_simp
    ring
  · have hrpos : 0 < r := lt_of_le_of_ne hr0 (Ne.symm hr)
    have hT : 1 < (1 + r) ^ y := one_lt_pow₀ (by linarith) hy0
    have hTne : (1 + r) ^ y - 1 ≠ 0 := ne_of_gt (by linarith)
    have hcong : ∀ k ∈ Finset.range y,
        ppmt r (k + 1) y q = (1 + r) ^ k * (pmt r y q + q * r) :=
      fun k _ => ppmt_closed r q y hr k
    rw [Finset.sum_congr rfl hcong, ← Finset.sum_mul,
      geom_sum_eq (by intro hcon; rw [show r = 0 from by linarith [hcon]] at hrpos; exact lt_irrefl 0 hrpos) y,
      show (1 : ℚ) + r - 1 = r from by ring,
      show pmt r y q = -q * (1 + r) ^ y * r / ((1 + r) ^ y - 1) from by
        unfold pmt; rw [if_neg hr]]
    field_simp
    ring

theorem loan_principal_total_witness : ((loan 50 (1/2) 3).2.2).sum = -50 :=
  loan_principal_total 50 (1/2) 3 (by norm_num) (by norm_num) (by norm_num)
    (by norm_num)

/-- C8 counterexample: `depreciation` performs no check on capex — with a
negative capex of -5 (and valid rate 1/2) the checked call returns a
schedule of positive entries instead of failing a precondition. -/
theorem depreciation_accepts_negative_capex :
    depreciationChecked (1/2) (-5) 0 = some [5/2, 5/2, 0] := by
  norm_num [depreciationChecked, depreciation, depFuel, depLoop]

/-- C8 (amended): the asserted preconditions are exactly those in the
source: `loan` rejects a non-positive quantity, a rate outside [0,1] and a
term of at most one year; `depreciation` rejects only a rate outside
[0,1] (capex is unconstrained); the installed flag of the cost functions
is boolean by type. -/
theorem asserted_preconditions :
    (∀ (q r : ℚ) (y : ℕ),
      loanChecked q r y = none ↔ ¬(0 < q ∧ 0 ≤ r ∧ r ≤ 1 ∧ 1 < y)) ∧
    (∀ d c rv : ℚ, ¬(0 ≤ d ∧ d ≤ 1) → depreciationChecked d c rv = none) := by
  constructor
  · intro q r y
    by_cases h : 0 < q ∧ 0 ≤ r ∧ r ≤ 1 ∧ 1 < y
    · simp [loanChecked, h]
    · simp [loanChecked, h]
  · intro d c rv h
    simp [depreciationChecked, h]

theorem asserted_preconditions_witness :
    loanChecked 100 2 5 = none ∧ depreciationChecked (-1/2) 100 0 = none :=
  ⟨(asserted_preconditions.1 100 2 5).mpr (by norm_num),
   asserted_preconditions.2 (-1/2) 100 0 (by norm_num)⟩

lemma boilerHigh_lt_boilerLow (Q : ℝ) (h1 : 1 < Q) (h2 : 1000 ≤ Q) :
    boilerHighFormula Q < boilerLowFormula Q := by
  unfold boilerHighFormula boilerLowFormula
  have hpow : Q ^ (0.9 : ℝ) < Q := by
    have hlt := Real.rpow_lt_rpow_of_exponent_lt h1
      (by norm_num : (0.9 : ℝ) < 1)
    rwa [Real.rpow_one] at hlt
  nlinarith

/-- C5 counterexample: at pressure p = 10 the formulas selected on either
side of Q = 20000 disagree at Q = 20000: the low-Q branch gives
`106000 + 8.7·20000 = 280000`, while the branch selected for Q ≥ 20000
gives `110000 + 4.5·20000^0.9 < 200000`. -/
theorem boiler_branches_disagree_at_20000 :
    boilerMidFormula 20000 10 ≠ boilerLowFormula 20000 := by
  have h := boilerHigh_lt_boilerLow 20000 (by norm_num) (by norm_num)
  have hmid : boilerMidFormula 20000 10 = boilerHighFormula 20000 := by
    unfold boilerMidFormula
    rw [if_pos (by norm_num : (10 : ℝ) < 15)]
  rw [hmid]
  exact ne_of_lt h

/-- C5 (amended): the branch formulas of the boiler correlation agree at a
boundary exactly when both sides select the same closed form: at
Q = 20000 exactly for pressures 15 ≤ p < 40, and at Q = 200000 exactly
for p < 15 or p ≥ 40; at all other pressures the boundary is a genuine
jump. -/
theorem boiler_boundary_consistency (p : ℝ) :
    (boilerLowFormula 20000 = boilerMidFormula 20000 p ↔ 15 ≤ p ∧ p < 40) ∧
    (boilerMidFormula 200000 p = boilerHighFormula 200000 ↔
      p < 15 ∨ 40 ≤ p) := by
  have h2 := boilerHigh_lt_boilerLow 20000 (by norm_num) (by norm_num)
  have h20 := boilerHigh_lt_boilerLow 200000 (by norm_num) (by norm_num)
  rcases lt_or_le p 15 with hp15 | hp15
  · have hm20 : boilerMidFormula 20000 p = boilerHighFormula 20000 := by
      unfold boilerMidFormula
      rw [if_pos hp15]
    have hm200 : boilerMidFormula 200000 p = boilerHighFormula 200000 := by
      unfold boilerMidFormula
      rw [if_pos hp15]
    refine ⟨?_, ?_⟩
    · rw [hm20]
      exact ⟨fun heq => absurd heq (ne_of_gt h2),
        fun hc => absurd hc.1 (not_le.2 hp15)⟩
    · rw [hm200]
      exact ⟨fun _ => Or.inl hp15, fun _ => rfl⟩
  · rcases lt_or_le p 40 with hp40 | hp40
    · have hm20 : boilerMidFormula 20000 p = boilerLowFormula 20000 := by
        unfold boilerMidFormula
        rw [if_neg (not_lt.2 hp15), if_pos hp40]
      have hm200 : boilerMidFormula 200000 p = boilerLowFormula 200000 := by
        unfold boilerMidFormula
        rw [if_neg (not_lt.2 hp15), if_pos hp40]
      refine ⟨?_, ?_⟩
      · rw [hm20]
        exact ⟨fun _ => ⟨hp15, hp40⟩, fun _ => rfl⟩
      · rw [hm200]
        refine ⟨fun heq => absurd heq.symm (ne_of_lt h20), ?_⟩
        rintro (h | h) <;> linarith
    · have hm20 : boilerMidFormula 20000 p = boilerHighFormula 20000 := by
        unfold boilerMidFormula
        rw [if_neg (not_lt.2 hp15), if_neg (not_lt.2 hp40)]
      have hm200 : boilerMidFormula 200000 p = boilerHighFormula 200000 := by
        unfold boilerMidFormula
        rw [if_neg (not_lt.2 hp15), if_neg (not_lt.2 hp40)]
      refine ⟨?_, ?_⟩
      · rw [hm20]
        refine ⟨fun heq => absurd heq (ne_of_gt h2), ?_⟩
        rintro ⟨_, h⟩
        linarith
      · rw [hm200]
        exact ⟨fun _ => Or.inr hp40, fun _ => rfl⟩

theorem boiler_boundary_consistency_witness :
    boilerLowFormula 20000 = boilerMidFormula 20000 30 :=
  (boiler_boundary_consistency 30).1.mpr ⟨by norm_num, by norm_num⟩

end EconomicAnalysis
